import Mathlib

/-!
Verification of the collaborative-canvas operation-log engine.

The development shallowly embeds the sync/session modules of the repository:
* the local draw session's distance filter (`filterNearbyPoints`),
* the client-side operation list (`addOperation` / `setOperations`),
* the `SyncService` commit / undo / redo operations over a model of the
  Postgres tables (`operations`, `redo_stack`) together with the
  `BIGSERIAL` sequencer and the `cleanup_old_redo_items` trigger,
* the room-id / UUID conversion helpers.

Machine identifiers (UUIDs, client-generated ids) are modelled as naturals
with decidable equality; timestamps as naturals drawn from a monotone clock;
numeric coordinates as rationals.
-/

namespace Canvas

/-! ### Local draw session: points and distance filtering (canvas-engine) -/

/-- A sampled pointer position (`Point` in `types/canvas`): coordinates and a
timestamp. -/
structure Point where
  x : ℚ
  y : ℚ
  timestamp : ℚ
deriving DecidableEq

/-- Squared Euclidean distance between two points.  The source computes
`Math.sqrt((p2.x-p1.x)**2 + (p2.y-p1.y)**2)`; we keep the square to stay in
the rationals. -/
def dist2 (p q : Point) : ℚ :=
  (q.x - p.x) ^ 2 + (q.y - p.y) ^ 2

/-- Square-root-free rendering of the source's guard
`distance(p, q) >= minDistance`: a nonnegative square root is `≥ m` iff
`m ≤ 0` or the squared distance is `≥ m²`. -/
def distGE (p q : Point) (m : ℚ) : Prop :=
  m ≤ 0 ∨ m ^ 2 ≤ dist2 p q

instance (p q : Point) (m : ℚ) : Decidable (distGE p q m) := by
  unfold distGE; infer_instance

/-- The loop of `filterNearbyPoints` (source lines 384-392) over the tail of
the point list, threading the last retained point.  The final raw point ends
up in the output exactly once: if it passes the distance test the loop keeps
it (and the source's reference-equality check `filtered[last] !== points[last]`
then sees the same object and does not re-append it); if it fails, the
force-retain branch appends it. -/
def filterTail (minDistance : ℚ) (lastKept : Point) : List Point → List Point
  | [] => []
  | p :: ps =>
    match ps with
    | [] => [p]
    | _ :: _ =>
      if distGE lastKept p minDistance then
        p :: filterTail minDistance p ps
      else
        filterTail minDistance lastKept ps

/-- `filterNearbyPoints(points, minDistance)`: lists of fewer than two points
are returned unchanged; otherwise the first point is always kept and the rest
is filtered by `filterTail`. -/
def filterNearbyPoints (points : List Point) (minDistance : ℚ) : List Point :=
  match points with
  | [] => []
  | [p] => [p]
  | p :: rest => p :: filterTail minDistance p rest

/-- The distance threshold used by `continueDrawing` / `endDrawing` in
`useCanvas`: `Math.max(1, toolSettings.width / 4)`. -/
def minDistFor (strokeWidth : ℚ) : ℚ :=
  max 1 (strokeWidth / 4)

/-! ### Shared enumerations -/

/-- Drawing tool kinds (`tool: 'brush' | 'eraser'`). -/
inductive Tool
  | brush
  | eraser
deriving DecidableEq

/-- Operation kinds (`type TEXT CHECK (type IN ('stroke', 'clear'))`). -/
inductive OpType
  | stroke
  | clear
deriving DecidableEq

/-! ### Sync client operation list (`useCanvas`) -/

/-- A `DrawingOperation` as held by the client (`types/canvas`); identifiers
are modelled as naturals with decidable equality, the server sequence as an
integer (a locally-buffered stroke carries `sequence: 0`). -/
structure DrawingOperation where
  id : ℕ
  userId : String
  type : OpType
  color : String
  width : ℚ
  tool : Tool
  points : List Point
  sequence : ℤ
deriving DecidableEq

/-- The comparator `(a, b) => a.sequence - b.sequence` as an order relation. -/
def seqLE (a b : DrawingOperation) : Prop :=
  a.sequence ≤ b.sequence

instance : DecidableRel seqLE :=
  fun a b => inferInstanceAs (Decidable (a.sequence ≤ b.sequence))

instance : IsTotal DrawingOperation seqLE :=
  ⟨fun a b => Int.le_total a.sequence b.sequence⟩

instance : IsTrans DrawingOperation seqLE :=
  ⟨fun _ _ _ h1 h2 => le_trans h1 h2⟩

/-- Strict version of `seqLE`, used to identify the unique sorted order when
sequence numbers are pairwise distinct. -/
def seqLT (a b : DrawingOperation) : Prop :=
  a.sequence < b.sequence

instance : IsAntisymm DrawingOperation seqLT :=
  ⟨fun _ _ h1 h2 => absurd (lt_trans h1 h2) (lt_irrefl _)⟩

/-- `addOperation` from `useCanvas` (lines 137-146): ignore an operation whose
id is already present, otherwise append it and re-sort by sequence.
`Array.prototype.sort` is a stable sort, which `List.insertionSort` models. -/
def addOperation (prev : List DrawingOperation) (op : DrawingOperation) :
    List DrawingOperation :=
  if prev.any (fun o => o.id == op.id) then prev
  else List.insertionSort seqLE (prev ++ [op])

/-- `setOperations` from `useCanvas` (lines 152-155): sort the given
operations by sequence. -/
def setOperations (ops : List DrawingOperation) : List DrawingOperation :=
  List.insertionSort seqLE ops

/-- Delivering a batch of operations one at a time into an initially empty
client state. -/
def deliverAll (ops : List DrawingOperation) : List DrawingOperation :=
  ops.foldl addOperation []

/-! ### Descending sort by a numeric key (`ORDER BY ... DESC`) -/

/-- `keyDesc key a b` holds when `a` sorts no later than `b` in descending
`key` order. -/
def keyDesc {α : Type} (key : α → ℕ) (a b : α) : Prop :=
  key b ≤ key a

instance {α : Type} (key : α → ℕ) : DecidableRel (keyDesc key) :=
  fun a b => inferInstanceAs (Decidable (key b ≤ key a))

instance {α : Type} (key : α → ℕ) : IsTotal α (keyDesc key) :=
  ⟨fun a b => (Nat.le_total (key b) (key a)).imp id id⟩

instance {α : Type} (key : α → ℕ) : IsTrans α (keyDesc key) :=
  ⟨fun _ _ _ h1 h2 => le_trans h2 h1⟩

/-- `ORDER BY key DESC` over an unordered row collection. -/
def sortDesc {α : Type} (key : α → ℕ) (l : List α) : List α :=
  List.insertionSort (keyDesc key) l

/-! ### The durable stores (`operations`, `redo_stack`) and `SyncService` -/

/-- The `data` JSONB payload written by `commitStroke`
(`{id, color, width, tool, points}`). -/
structure StrokeData where
  id : ℕ
  color : String
  width : ℚ
  tool : Tool
  points : List Point
deriving DecidableEq

/-- A row of the `operations` table. -/
structure OpRow where
  id : ℕ
  room_id : String
  user_id : String
  user_name : String
  user_color : String
  sequence : ℕ
  type : OpType
  data : StrokeData
  created_at : ℕ
deriving DecidableEq

/-- A row of the `redo_stack` table. -/
structure RedoRow where
  id : ℕ
  room_id : String
  operation_data : OpRow
  deleted_at : ℕ
  original_id : ℕ
deriving DecidableEq

/-- The durable state: both tables, the `BIGSERIAL` sequence counter, a
fresh-id source standing for `gen_random_uuid()`, and a monotone clock
standing for `now()`.  The database serialises all writes, so concurrent
calls are modelled as an arbitrary interleaving of these atomic steps. -/
structure DB where
  ops : List OpRow
  redo : List RedoRow
  nextSeq : ℕ
  nextId : ℕ
  clock : ℕ
deriving DecidableEq

/-- The per-connection `SyncService` configuration. -/
structure SyncService where
  roomId : String
  userId : String
  userName : String
  userColor : String
deriving DecidableEq

/-- The rows of `operations` belonging to one room
(`.eq('room_id', roomId)`). -/
def roomOps (db : DB) (room : String) : List OpRow :=
  db.ops.filter (fun o => o.room_id == room)

/-- The rows of `redo_stack` belonging to one room. -/
def roomRedo (db : DB) (room : String) : List RedoRow :=
  db.redo.filter (fun r => r.room_id == room)

/-- An accepted `INSERT INTO operations`: the row receives the next value of
the `BIGSERIAL` sequence atomically, a fresh id, and the current timestamp. -/
def insertOp (db : DB) (room uid uname ucolor : String) (ty : OpType)
    (d : StrokeData) : OpRow × DB :=
  let row : OpRow :=
    { id := db.nextId, room_id := room, user_id := uid, user_name := uname,
      user_color := ucolor, sequence := db.nextSeq, type := ty, data := d,
      created_at := db.clock }
  (row,
    { db with
        ops := db.ops ++ [row], nextSeq := db.nextSeq + 1,
        nextId := db.nextId + 1, clock := db.clock + 1 })

/-- `SyncService.clearRedoStack` (lines 288-293): delete every `redo_stack`
row of the room. -/
def clearRedoStack (db : DB) (room : String) : DB :=
  { db with redo := db.redo.filter (fun r => !(r.room_id == room)) }

/-- The `cleanup_old_redo_items` trigger: after an insert, keep only the 50
most recent rows of the room by `deleted_at` (delete the rows at
`OFFSET 50` of the `deleted_at DESC` ordering). -/
def cleanupOldRedoItems (l : List RedoRow) : List RedoRow :=
  (sortDesc (fun r => r.deleted_at) l).take 50

/-- An `INSERT INTO redo_stack` for one room followed by the cleanup trigger;
rows of other rooms are untouched. -/
def pushRedo (db : DB) (room : String) (e : RedoRow) : DB :=
  { db with
      redo := db.redo.filter (fun r => !(r.room_id == room)) ++
        cleanupOldRedoItems (roomRedo db room ++ [e]),
      nextId := db.nextId + 1,
      clock := db.clock + 1 }

/-- The `strokeData` object built by `commitStroke` from a stroke operation. -/
def strokeDataOf (s : DrawingOperation) : StrokeData :=
  { id := s.id, color := s.color, width := s.width, tool := s.tool,
    points := s.points }

/-- `SyncService.commitStroke` (lines 168-197): clear the room's redo stack,
then insert the stroke row.  `ok` says whether the durable insert completes;
on failure the call returns `none` (the source's `return null`).  On success
the source returns `data?.sequence || null`, so a sequence value of `0` would
also collapse to `none`. -/
def commitStroke (svc : SyncService) (stroke : DrawingOperation) (ok : Bool)
    (db : DB) : Option ℕ × DB :=
  let db1 := clearRedoStack db svc.roomId
  if ok then
    let r := insertOp db1 svc.roomId svc.userId svc.userName svc.userColor
      OpType.stroke (strokeDataOf stroke)
    (if r.1.sequence == 0 then none else some r.1.sequence, r.2)
  else
    (none, db1)

/-- `SyncService.commitClear` (lines 199-204): delete every `operations` row
of the room.  It does not touch the `redo_stack` table. -/
def commitClear (svc : SyncService) (db : DB) : DB :=
  { db with ops := db.ops.filter (fun o => !(o.room_id == svc.roomId)) }

/-- `SyncService.undoLast` (lines 206-237): fetch the room's operation with
the highest sequence (`ORDER BY sequence DESC LIMIT 1`); if none, return
`none` unchanged; otherwise insert the full row into `redo_stack`, delete it
from `operations` by id, and return its id. -/
def undoLast (svc : SyncService) (db : DB) : Option ℕ × DB :=
  match (sortDesc (fun o => o.sequence) (roomOps db svc.roomId)).head? with
  | none => (none, db)
  | some lastOp =>
    let entry : RedoRow :=
      { id := db.nextId, room_id := svc.roomId, operation_data := lastOp,
        deleted_at := db.clock, original_id := lastOp.id }
    let db1 := pushRedo db svc.roomId entry
    let db2 := { db1 with ops := db1.ops.filter (fun o => !(o.id == lastOp.id)) }
    (some lastOp.id, db2)

/-- `SyncService.redoLast` (lines 239-277): fetch the room's most recent
`redo_stack` row (`ORDER BY deleted_at DESC LIMIT 1`); if none, return `none`
unchanged; otherwise re-insert its payload as a new operation (new sequence),
delete the redo row, and return the newly committed row. -/
def redoLast (svc : SyncService) (db : DB) : Option OpRow × DB :=
  match (sortDesc (fun r => r.deleted_at) (roomRedo db svc.roomId)).head? with
  | none => (none, db)
  | some item =>
    let r := insertOp db svc.roomId item.operation_data.user_id
      item.operation_data.user_name item.operation_data.user_color
      item.operation_data.type item.operation_data.data
    let db2 := { r.2 with redo := r.2.redo.filter (fun x => !(x.id == item.id)) }
    (some r.1, db2)

/-- Any number of `undoLast` calls, possibly from different clients. -/
def undoMany (svcs : List SyncService) (db : DB) : DB :=
  svcs.foldl (fun d s => (undoLast s d).2) db

/-- A candidate operation proposed to the sequencer by some client. -/
structure AppendReq where
  room : String
  user_id : String
  user_name : String
  user_color : String
  type : OpType
  data : StrokeData
deriving DecidableEq

/-- A serialised run of accepted `append` calls (the database is the single
serialisation point); returns the `(room, assigned sequence)` pairs in
call-acceptance order. -/
def appendAll (db : DB) : List AppendReq → List (String × ℕ) × DB
  | [] => ([], db)
  | r :: rs =>
    let ins := insertOp db r.room r.user_id r.user_name r.user_color r.type r.data
    let rest := appendAll ins.2 rs
    ((r.room, ins.1.sequence) :: rest.1, rest.2)

/-- Well-formedness of the durable state, as guaranteed by the schema:
the `BIGSERIAL` counter starts at 1 and dominates every stored sequence,
stored sequences and ids are pairwise distinct, and every `deleted_at` value
was drawn from the clock in the past, pairwise distinctly. -/
def WF (db : DB) : Prop :=
  1 ≤ db.nextSeq ∧
  (∀ o ∈ db.ops, o.sequence < db.nextSeq) ∧
  db.ops.Pairwise (fun a b => a.sequence ≠ b.sequence) ∧
  db.ops.Pairwise (fun a b => a.id ≠ b.id) ∧
  (∀ r ∈ db.redo, r.deleted_at < db.clock) ∧
  db.redo.Pairwise (fun a b => a.deleted_at ≠ b.deleted_at)

instance (db : DB) : Decidable (WF db) := by
  unfold WF; infer_instance

/-! ### Room id / UUID conversion (`RoomSelector`) -/

/-- `String.prototype.padEnd(n, c)` over a character list. -/
def padEnd (s : List Char) (n : ℕ) (c : Char) : List Char :=
  s ++ List.replicate (n - s.length) c

/-- `String.prototype.slice(a, b)` over a character list. -/
def slice (s : List Char) (a b : ℕ) : List Char :=
  (s.take b).drop a

/-- `roomIdToUUID` (RoomSelector lines 32-35): zero-pad to 32 characters and
group as 8-4-4-4-12 with hyphens. -/
def roomIdToUUID (s : List Char) : List Char :=
  let p := padEnd s 32 '0'
  slice p 0 8 ++ ['-'] ++ slice p 8 12 ++ ['-'] ++ slice p 12 16 ++ ['-'] ++
    slice p 16 20 ++ ['-'] ++ slice p 20 32

/-- `uuidToRoomId` (RoomSelector lines 37-39): strip every hyphen and keep
the first 8 characters. -/
def uuidToRoomId (u : List Char) : List Char :=
  (u.filter (fun c => !(c == '-'))).take 8

/-! ### Concrete instances used by witnesses and counterexamples -/

/-- A concrete stroke payload. -/
def strokeData0 : StrokeData :=
  { id := 100, color := "black", width := 4, tool := Tool.brush, points := [] }

/-- A concrete client session in room `r1`. -/
def svc0 : SyncService :=
  { roomId := "r1", userId := "ua", userName := "alice", userColor := "red" }

/-- A concrete committed operation row in room `r1`. -/
def row0 : OpRow :=
  { id := 0, room_id := "r1", user_id := "ua", user_name := "alice",
    user_color := "red", sequence := 1, type := OpType.stroke,
    data := strokeData0, created_at := 0 }

/-- A database holding the single operation `row0` and an empty redo stack. -/
def db0 : DB :=
  { ops := [row0], redo := [], nextSeq := 2, nextId := 1, clock := 1 }

/-- A redo-stack row remembering `row0` as removed. -/
def redoRow0 : RedoRow :=
  { id := 5, room_id := "r1", operation_data := row0, deleted_at := 0,
    original_id := 0 }

/-- A database whose room `r1` has an empty log but a non-empty redo stack. -/
def dbRedo0 : DB :=
  { ops := [], redo := [redoRow0], nextSeq := 2, nextId := 6, clock := 1 }

/-- A concrete client-side stroke used by witnesses. -/
def mkOp (i : ℕ) (s : ℤ) : DrawingOperation :=
  { id := i, userId := "u", type := OpType.stroke, color := "black",
    width := 4, tool := Tool.brush, points := [], sequence := s }

/-! #### Lemmas about the filter -/

theorem filterTail_ne_nil (m : ℚ) (lastKept : Point) (ps : List Point)
    (h : ps ≠ []) : filterTail m lastKept ps ≠ [] := by
  induction ps generalizing lastKept with
  | nil => exact absurd rfl h
  | cons p ps ih =>
    cases ps with
    | nil => simp [filterTail]
    | cons q ps =>
      rw [filterTail]
      split
      · simp
      · exact ih _ (by simp)

theorem filterTail_getLast? (m : ℚ) (lastKept : Point) (ps : List Point)
    (h : ps ≠ []) :
    (filterTail m lastKept ps).getLast? = ps.getLast? := by
  induction ps generalizing lastKept with
  | nil => exact absurd rfl h
  | cons p ps ih =>
    cases ps with
    | nil => simp [filterTail]
    | cons q ps =>
      rw [filterTail]
      split
      · rcases htl : filterTail m p (q :: ps) with _ | ⟨a, l⟩
        · exact absurd htl (filterTail_ne_nil m p (q :: ps) (by simp))
        · rw [List.getLast?_cons_cons, ← htl, ih p (by simp),
            List.getLast?_cons_cons]
      · rw [ih lastKept (by simp), List.getLast?_cons_cons]

theorem filterTail_chain (m : ℚ) (lastKept : Point) (ps : List Point) :
    List.Chain' (fun a b => distGE a b m)
      ((lastKept :: filterTail m lastKept ps).dropLast) := by
  induction ps generalizing lastKept with
  | nil => simp [filterTail]
  | cons p ps ih =>
    cases ps with
    | nil => simp [filterTail]
    | cons q ps =>
      rw [filterTail]
      split
      · rcases htl : filterTail m p (q :: ps) with _ | ⟨a, l⟩
        · exact absurd htl (filterTail_ne_nil m p (q :: ps) (by simp))
        · have hih := ih p
          rw [htl, List.dropLast_cons₂] at hih
          rw [List.dropLast_cons₂, List.dropLast_cons₂]
          exact List.chain'_cons.mpr ⟨by assumption, hih⟩
      · exact ih lastKept


/-! #### Descending sort: head is a maximum -/

theorem sortDesc_perm {α : Type} (key : α → ℕ) (l : List α) :
    List.Perm (sortDesc key l) l :=
  List.perm_insertionSort _ _

theorem sortDesc_sorted {α : Type} (key : α → ℕ) (l : List α) :
    List.Sorted (keyDesc key) (sortDesc key l) :=
  List.sorted_insertionSort _ _

theorem sortDesc_head_max {α : Type} (key : α → ℕ) (l : List α) (h : l ≠ []) :
    ∃ m, (sortDesc key l).head? = some m ∧ m ∈ l ∧ ∀ x ∈ l, key x ≤ key m := by
  have hperm := sortDesc_perm key l
  rcases hs : sortDesc key l with _ | ⟨m, t⟩
  · rw [hs] at hperm
    exact absurd hperm.symm.eq_nil h
  · rw [hs] at hperm
    refine ⟨m, rfl, hperm.mem_iff.mp (List.mem_cons_self m t), ?_⟩
    intro x hx
    rcases List.mem_cons.mp (hperm.mem_iff.mpr hx) with hxm | hxt
    · exact le_of_eq (congrArg key hxm)
    · have hsorted := sortDesc_sorted key l
      rw [hs] at hsorted
      exact List.rel_of_sorted_cons hsorted x hxt

theorem sortDesc_head_of_strict_max {α : Type} (key : α → ℕ) (l : List α)
    (x : α) (hx : x ∈ l) (hmax : ∀ y ∈ l, y ≠ x → key y < key x) :
    (sortDesc key l).head? = some x := by
  obtain ⟨m, hm, hmem, hall⟩ := sortDesc_head_max key l (List.ne_nil_of_mem hx)
  by_cases hxm : m = x
  · rw [hm, hxm]
  · exact absurd (hall x hx) (not_le_of_lt (hmax m hmem hxm))

/-! #### Client operation list -/

theorem foldl_addOperation_perm (l : List DrawingOperation) :
    ∀ acc, (∀ a ∈ acc, ∀ b ∈ l, a.id ≠ b.id) →
      l.Pairwise (fun a b => a.id ≠ b.id) →
      List.Perm (List.foldl addOperation acc l) (acc ++ l) := by
  induction l with
  | nil =>
    intro acc _ _
    simp
  | cons op t ih =>
    intro acc hacc hpair
    have hany : (acc.any (fun o => o.id == op.id)) ≠ true := by
      intro hcontra
      obtain ⟨a, ha, hbeq⟩ := List.any_eq_true.mp hcontra
      exact hacc a ha op (List.mem_cons_self op t) (by simpa using hbeq)
    have hstep : addOperation acc op = List.insertionSort seqLE (acc ++ [op]) := by
      unfold addOperation
      rw [if_neg hany]
    rw [List.foldl_cons, hstep]
    have hperm₁ : List.Perm (List.insertionSort seqLE (acc ++ [op])) (acc ++ [op]) :=
      List.perm_insertionSort _ _
    have hip : ∀ a ∈ List.insertionSort seqLE (acc ++ [op]), ∀ b ∈ t, a.id ≠ b.id := by
      intro a ha b hb
      rcases List.mem_append.mp (hperm₁.mem_iff.mp ha) with h | h
      · exact hacc a h b (List.mem_cons_of_mem _ hb)
      · have haop : a = op := by simpa using h
        subst haop
        exact (List.pairwise_cons.mp hpair).1 b hb
    have hrec := ih (List.insertionSort seqLE (acc ++ [op])) hip
      (List.pairwise_cons.mp hpair).2
    have heq : (acc ++ [op]) ++ t = acc ++ op :: t := by simp
    exact hrec.trans (heq ▸ hperm₁.append_right t)

theorem foldl_addOperation_sorted (l : List DrawingOperation) :
    ∀ acc, List.Sorted seqLE acc → List.Sorted seqLE (List.foldl addOperation acc l) := by
  induction l with
  | nil =>
    intro acc h
    simpa using h
  | cons op t ih =>
    intro acc hacc
    rw [List.foldl_cons]
    apply ih
    unfold addOperation
    split
    · exact hacc
    · exact List.sorted_insertionSort _ _

theorem sorted_seqLT_of_sorted_seqLE (l : List DrawingOperation)
    (hs : List.Sorted seqLE l)
    (hne : l.Pairwise (fun a b => a.sequence ≠ b.sequence)) :
    List.Sorted seqLT l :=
  List.Pairwise.imp (fun h => lt_of_le_of_ne h.1 h.2) (List.Pairwise.and hs hne)


/-! #### Claim C7: the distance filter -/

/-- C7: for every non-empty list of raw points and the threshold
`minDistance = max(1, strokeWidth/4)`, the distance filter keeps the first
point, keeps each later retained point only when it is at Euclidean distance
`≥ minDistance` from the previously retained point (every adjacent pair of
the output except possibly the final forced one satisfies `distGE`), always
force-retains the final raw point, and never returns an empty list; on
(0,0),(0,1),(0,2) with `minDistance = 5` it yields exactly [(0,0),(0,2)]. -/
theorem filterNearbyPoints_spec (strokeWidth : ℚ) (ps : List Point)
    (h : ps ≠ []) :
    (filterNearbyPoints ps (minDistFor strokeWidth)).head? = ps.head? ∧
    filterNearbyPoints ps (minDistFor strokeWidth) ≠ [] ∧
    (filterNearbyPoints ps (minDistFor strokeWidth)).getLast? = ps.getLast? ∧
    List.Chain' (fun a b => distGE a b (minDistFor strokeWidth))
      ((filterNearbyPoints ps (minDistFor strokeWidth)).dropLast) ∧
    filterNearbyPoints [⟨0, 0, 0⟩, ⟨0, 1, 0⟩, ⟨0, 2, 0⟩] 5 =
      [⟨0, 0, 0⟩, ⟨0, 2, 0⟩] := by
  have hex : filterNearbyPoints [(⟨0, 0, 0⟩ : Point), ⟨0, 1, 0⟩, ⟨0, 2, 0⟩] 5 =
      [⟨0, 0, 0⟩, ⟨0, 2, 0⟩] := by
    norm_num [filterNearbyPoints, filterTail, distGE, dist2]
  cases ps with
  | nil => exact absurd rfl h
  | cons p rest =>
    cases rest with
    | nil =>
      refine ⟨rfl, by simp [filterNearbyPoints], rfl, ?_, hex⟩
      simp [filterNearbyPoints]
    | cons q rest' =>
      have hfil : filterNearbyPoints (p :: q :: rest') (minDistFor strokeWidth) =
          p :: filterTail (minDistFor strokeWidth) p (q :: rest') := rfl
      refine ⟨by rw [hfil]; rfl, by rw [hfil]; simp, ?_, ?_, hex⟩
      · obtain ⟨a, l, htl⟩ := List.exists_cons_of_ne_nil
          (filterTail_ne_nil (minDistFor strokeWidth) p (q :: rest') (by simp))
        rw [hfil, htl, List.getLast?_cons_cons, ← htl,
          filterTail_getLast? (minDistFor strokeWidth) p _ (by simp),
          List.getLast?_cons_cons]
      · rw [hfil]
        exact filterTail_chain (minDistFor strokeWidth) p (q :: rest')

/-- Witness for C7 at the concrete input `[(0,0)]` with stroke width 20. -/
theorem filterNearbyPoints_spec_witness :
    ([(⟨0, 0, 0⟩ : Point)] ≠ []) ∧
    filterNearbyPoints [(⟨0, 0, 0⟩ : Point)] (minDistFor 20) ≠ [] :=
  ⟨by simp, (filterNearbyPoints_spec 20 [⟨0, 0, 0⟩] (by simp)).2.1⟩

/-! #### Claim C8: duplicate delivery is a no-op -/

/-- C8: if an operation's identifier already occurs in the client state,
`addOperation` leaves the state unchanged; in particular delivering the same
operation twice yields the same state as delivering it once. -/
theorem addOperation_duplicate_noop (prev : List DrawingOperation)
    (op : DrawingOperation) :
    ((∃ o ∈ prev, o.id = op.id) → addOperation prev op = prev) ∧
    addOperation (addOperation prev op) op = addOperation prev op := by
  constructor
  · rintro ⟨o, ho, hid⟩
    unfold addOperation
    rw [if_pos (List.any_eq_true.mpr ⟨o, ho, by simp [hid]⟩)]
  · by_cases hany : prev.any (fun o => o.id == op.id) = true
    · have h1 : addOperation prev op = prev := by
        unfold addOperation
        rw [if_pos hany]
      rw [h1, h1]
    · have h1 : addOperation prev op = List.insertionSort seqLE (prev ++ [op]) := by
        unfold addOperation
        rw [if_neg hany]
      have hmem : op ∈ List.insertionSort seqLE (prev ++ [op]) :=
        (List.perm_insertionSort seqLE (prev ++ [op])).mem_iff.mpr (by simp)
      rw [h1]
      unfold addOperation
      rw [if_pos (List.any_eq_true.mpr ⟨op, hmem, by simp⟩)]

/-- Witness for C8: a duplicate of the sole committed operation is ignored. -/
theorem addOperation_duplicate_noop_witness :
    (∃ o ∈ [mkOp 1 2], o.id = (mkOp 1 5).id) ∧
    addOperation [mkOp 1 2] (mkOp 1 5) = [mkOp 1 2] :=
  ⟨⟨mkOp 1 2, by simp, rfl⟩,
    (addOperation_duplicate_noop [mkOp 1 2] (mkOp 1 5)).1 ⟨mkOp 1 2, by simp, rfl⟩⟩

/-! #### Claim C9: arrival order does not matter -/

/-- C9: for committed operations (pairwise distinct identifiers and pairwise
distinct server-assigned sequence numbers), delivering them one at a time via
`addOperation` in any order, or all at once via `setOperations`, produces the
same list, sorted by ascending sequence. -/
theorem delivery_order_independent (l₁ l₂ : List DrawingOperation)
    (hperm : List.Perm l₁ l₂)
    (hid : l₁.Pairwise (fun a b => a.id ≠ b.id))
    (hseq : l₁.Pairwise (fun a b => a.sequence ≠ b.sequence)) :
    deliverAll l₁ = deliverAll l₂ ∧ deliverAll l₁ = setOperations l₂ ∧
    List.Sorted seqLE (deliverAll l₁) := by
  have hid₂ : l₂.Pairwise (fun a b => a.id ≠ b.id) :=
    (List.Perm.pairwise_iff (fun hab => Ne.symm hab) hperm).mp hid
  have hd₁ : List.Perm (deliverAll l₁) l₁ := by
    have := foldl_addOperation_perm l₁ [] (by simp) hid
    simpa [deliverAll] using this
  have hd₂ : List.Perm (deliverAll l₂) l₂ := by
    have := foldl_addOperation_perm l₂ [] (by simp) hid₂
    simpa [deliverAll] using this
  have hs₁ : List.Sorted seqLE (deliverAll l₁) :=
    foldl_addOperation_sorted l₁ [] List.sorted_nil
  have hs₂ : List.Sorted seqLE (deliverAll l₂) :=
    foldl_addOperation_sorted l₂ [] List.sorted_nil
  have hset : List.Perm (setOperations l₂) l₂ := List.perm_insertionSort _ _
  have hsset : List.Sorted seqLE (setOperations l₂) := List.sorted_insertionSort _ _
  have hseqsym : ∀ {a b : DrawingOperation},
      a.sequence ≠ b.sequence → b.sequence ≠ a.sequence := fun hab => Ne.symm hab
  have hseq₁ : (deliverAll l₁).Pairwise (fun a b => a.sequence ≠ b.sequence) :=
    (List.Perm.pairwise_iff hseqsym hd₁).mpr hseq
  have hseq₂ : (deliverAll l₂).Pairwise (fun a b => a.sequence ≠ b.sequence) :=
    (List.Perm.pairwise_iff hseqsym (hd₂.trans hperm.symm)).mpr hseq
  have hseqset : (setOperations l₂).Pairwise (fun a b => a.sequence ≠ b.sequence) :=
    (List.Perm.pairwise_iff hseqsym (hset.trans hperm.symm)).mpr hseq
  have hlt₁ := sorted_seqLT_of_sorted_seqLE _ hs₁ hseq₁
  have hlt₂ := sorted_seqLT_of_sorted_seqLE _ hs₂ hseq₂
  have hltset := sorted_seqLT_of_sorted_seqLE _ hsset hseqset
  refine ⟨?_, ?_, hs₁⟩
  · exact List.eq_of_perm_of_sorted (hd₁.trans (hperm.trans hd₂.symm)) hlt₁ hlt₂
  · exact List.eq_of_perm_of_sorted (hd₁.trans (hperm.trans hset.symm)) hlt₁ hltset

/-- Witness for C9: two distinct committed operations delivered in both
orders. -/
theorem delivery_order_independent_witness :
    List.Perm [mkOp 1 2, mkOp 2 1] [mkOp 2 1, mkOp 1 2] ∧
    List.Pairwise (fun a b => a.id ≠ b.id) [mkOp 1 2, mkOp 2 1] ∧
    List.Pairwise (fun a b => a.sequence ≠ b.sequence) [mkOp 1 2, mkOp 2 1] ∧
    deliverAll [mkOp 1 2, mkOp 2 1] = deliverAll [mkOp 2 1, mkOp 1 2] :=
  ⟨List.Perm.swap _ _ _, by decide, by decide,
    (delivery_order_independent [mkOp 1 2, mkOp 2 1] [mkOp 2 1, mkOp 1 2]
      (List.Perm.swap _ _ _) (by decide) (by decide)).1⟩


/-! #### Claim C10: room id / UUID round trip -/

theorem slice_pad_zero (s : List Char) (hlen : s.length ≤ 8) :
    slice (s ++ List.replicate (32 - s.length) '0') 0 8 =
      s ++ List.replicate (8 - s.length) '0' := by
  unfold slice
  rw [List.drop_zero, List.take_append_eq_append_take, List.take_of_length_le hlen,
    List.take_replicate, min_eq_left (by omega)]

theorem slice_pad_mid (s : List Char) (a b : ℕ) (hsa : s.length ≤ a)
    (hab : a ≤ b) (hb32 : b ≤ 32) :
    slice (s ++ List.replicate (32 - s.length) '0') a b =
      List.replicate (b - a) '0' := by
  unfold slice
  rw [List.take_append_eq_append_take, List.take_of_length_le (le_trans hsa hab),
    List.take_replicate, min_eq_left (by omega), List.drop_append_eq_append_drop,
    List.drop_eq_nil_of_le hsa, List.drop_replicate, List.nil_append]
  congr 1
  omega

theorem roomIdToUUID_decomp (s : List Char) (hlen : s.length ≤ 8) :
    roomIdToUUID s =
      (s ++ List.replicate (8 - s.length) '0') ++ ['-'] ++
        List.replicate 4 '0' ++ ['-'] ++ List.replicate 4 '0' ++ ['-'] ++
        List.replicate 4 '0' ++ ['-'] ++ List.replicate 12 '0' := by
  have h08 := slice_pad_zero s hlen
  have h812 := slice_pad_mid s 8 12 hlen (by omega) (by omega)
  have h1216 := slice_pad_mid s 12 16 (by omega) (by omega) (by omega)
  have h1620 := slice_pad_mid s 16 20 (by omega) (by omega) (by omega)
  have h2032 := slice_pad_mid s 20 32 (by omega) (by omega) (by omega)
  norm_num at h812 h1216 h1620 h2032
  simp only [roomIdToUUID, padEnd]
  rw [h08, h812, h1216, h1620, h2032]

theorem filter_no_dash (l : List Char) (h : ∀ c ∈ l, c ≠ '-') :
    l.filter (fun c => !(c == '-')) = l :=
  List.filter_eq_self.mpr (fun a ha => by simpa using h a ha)

theorem filter_zeros (k : ℕ) :
    (List.replicate k '0').filter (fun c => !(c == '-')) = List.replicate k '0' :=
  List.filter_eq_self.mpr (fun a ha => by
    rw [List.mem_replicate] at ha
    simp [ha.2])

/-- C10 counterexample: the 8-character input `-0000000` (containing a
hyphen) does not round-trip through `roomIdToUUID` and `uuidToRoomId`. -/
theorem roomId_roundtrip_counterexample :
    uuidToRoomId (roomIdToUUID ("-0000000".toList)) ≠ "-0000000".toList := by
  decide

/-- C10 (amended): for hyphen-free inputs of at most 8 characters the round
trip returns the input zero-padded to 8 characters; in particular on
hyphen-free inputs of exactly 8 characters (which is all the room-id
generator produces) it is the identity. -/
theorem roomId_roundtrip_amended (s : List Char) (hlen : s.length ≤ 8)
    (hdash : ∀ c ∈ s, c ≠ '-') :
    uuidToRoomId (roomIdToUUID s) = s ++ List.replicate (8 - s.length) '0' ∧
    (s.length = 8 → uuidToRoomId (roomIdToUUID s) = s) := by
  have hdashnil : List.filter (fun c => !(c == '-')) ['-'] = [] := rfl
  have hmain : uuidToRoomId (roomIdToUUID s) =
      s ++ List.replicate (8 - s.length) '0' := by
    rw [roomIdToUUID_decomp s hlen]
    unfold uuidToRoomId
    simp only [List.filter_append, filter_no_dash s hdash, filter_zeros, hdashnil,
      List.append_nil, List.nil_append, List.append_assoc]
    rw [← List.replicate_add, ← List.replicate_add, ← List.replicate_add,
      ← List.replicate_add, List.take_append_eq_append_take,
      List.take_of_length_le hlen, List.take_replicate, min_eq_left (by omega)]
  exact ⟨hmain, fun h8 => by rw [hmain, h8]; simp⟩

/-- Witness for C10 (amended) at the hyphen-free 8-character input
`abcdefgh`. -/
theorem roomId_roundtrip_amended_witness :
    ("abcdefgh".toList.length ≤ 8) ∧
    uuidToRoomId (roomIdToUUID ("abcdefgh".toList)) = "abcdefgh".toList :=
  ⟨by decide,
    (roomId_roundtrip_amended ("abcdefgh".toList) (by decide) (by decide)).2
      (by decide)⟩


/-! #### Redo-stack table lemmas -/

theorem roomRedo_clearRedoStack (db : DB) (room : String) :
    roomRedo (clearRedoStack db room) room = [] := by
  unfold roomRedo clearRedoStack
  rw [List.filter_filter]
  apply List.filter_eq_nil_iff.mpr
  intro a _
  simp

theorem mem_cleanup (l : List RedoRow) (x : RedoRow)
    (hx : x ∈ cleanupOldRedoItems l) : x ∈ l := by
  unfold cleanupOldRedoItems at hx
  exact (sortDesc_perm _ l).mem_iff.mp ((List.take_sublist _ _).subset hx)

theorem filter_room_eq_cleanup (rl : List RedoRow) (room : String) (e : RedoRow)
    (he : e.room_id = room) :
    (rl.filter (fun r => !(r.room_id == room)) ++
        cleanupOldRedoItems (rl.filter (fun r => r.room_id == room) ++ [e])).filter
          (fun r => r.room_id == room) =
      cleanupOldRedoItems (rl.filter (fun r => r.room_id == room) ++ [e]) := by
  rw [List.filter_append]
  have h1 : (rl.filter (fun r => !(r.room_id == room))).filter
      (fun r => r.room_id == room) = [] := by
    rw [List.filter_filter]
    apply List.filter_eq_nil_iff.mpr
    intro a _
    simp
  have h2 : (cleanupOldRedoItems (rl.filter (fun r => r.room_id == room) ++ [e])).filter
      (fun r => r.room_id == room) =
      cleanupOldRedoItems (rl.filter (fun r => r.room_id == room) ++ [e]) := by
    apply List.filter_eq_self.mpr
    intro x hx
    rcases List.mem_append.mp (mem_cleanup _ _ hx) with h | h
    · exact (List.mem_filter.mp h).2
    · have hxe : x = e := by simpa using h
      simp [hxe, he]
  rw [h1, h2, List.nil_append]

theorem filter_other_room_eq (rl : List RedoRow) (room other : String) (e : RedoRow)
    (he : e.room_id = room) (hne : other ≠ room) :
    (rl.filter (fun r => !(r.room_id == room)) ++
        cleanupOldRedoItems (rl.filter (fun r => r.room_id == room) ++ [e])).filter
          (fun r => r.room_id == other) =
      rl.filter (fun r => r.room_id == other) := by
  rw [List.filter_append]
  have h2 : (cleanupOldRedoItems (rl.filter (fun r => r.room_id == room) ++ [e])).filter
      (fun r => r.room_id == other) = [] := by
    apply List.filter_eq_nil_iff.mpr
    intro x hx
    have hxroom : x.room_id = room := by
      rcases List.mem_append.mp (mem_cleanup _ _ hx) with h | h
      · have := (List.mem_filter.mp h).2
        simpa using this
      · have hxe : x = e := by simpa using h
        rw [hxe, he]
    have hro : ¬room = other := fun hc => hne hc.symm
    simp [hxroom, hro]
  have h1 : (rl.filter (fun r => !(r.room_id == room))).filter
      (fun r => r.room_id == other) = rl.filter (fun r => r.room_id == other) := by
    rw [List.filter_filter]
    apply List.filter_congr
    intro a _
    cases hb : (a.room_id == other) with
    | false => simp [hb]
    | true =>
      have ha : a.room_id = other := by simpa using hb
      have : a.room_id ≠ room := fun hc => hne (ha ▸ hc)
      simp [hb, this]
  rw [h1, h2, List.append_nil]

theorem redoLast_of_empty (svc : SyncService) (db : DB)
    (h : roomRedo db svc.roomId = []) : redoLast svc db = (none, db) := by
  unfold redoLast
  rw [h]
  rfl

theorem cleanup_head_of_strict_max (l : List RedoRow) (e : RedoRow) (he : e ∈ l)
    (hmax : ∀ y ∈ l, y ≠ e → y.deleted_at < e.deleted_at) :
    ∃ t, cleanupOldRedoItems l = e :: t := by
  unfold cleanupOldRedoItems
  have hhead := sortDesc_head_of_strict_max (fun r => r.deleted_at) l e he hmax
  rcases hsd : sortDesc (fun r => r.deleted_at) l with _ | ⟨a, t⟩
  · rw [hsd] at hhead
    simp at hhead
  · rw [hsd] at hhead
    have hae : a = e := by simpa using hhead
    subst hae
    rw [hsd, show (50 : ℕ) = 49 + 1 from rfl, List.take_succ_cons]
    exact ⟨List.take 49 t, rfl⟩

theorem sortDesc_cleanup (l : List RedoRow) :
    sortDesc (fun r => r.deleted_at) (cleanupOldRedoItems l) =
      cleanupOldRedoItems l := by
  unfold cleanupOldRedoItems
  exact List.Sorted.insertionSort_eq
    (List.Pairwise.sublist (List.take_sublist _ _) (sortDesc_sorted _ l))

/-! #### Claim C1 (corrected): which commits clear the redo stack -/

/-- C1 counterexample: `commitClear` does not clear the redo stack.  In
`dbRedo0`, room `r1` has a redo entry; after `commitClear` it is still there
and `redoLast` still returns an operation instead of `None`. -/
theorem commitClear_redo_counterexample :
    roomRedo (commitClear svc0 dbRedo0) "r1" ≠ [] ∧
    (redoLast svc0 (commitClear svc0 dbRedo0)).1 ≠ none := by
  exact ⟨by decide, by decide⟩

/-- C1 (amended): every `commitStroke` call (successful or not) leaves the
room's redo stack empty, so a subsequent `redoLast` returns `None` and
changes nothing; `commitClear`, by contrast, leaves the `redo_stack` table
untouched. -/
theorem commitStroke_clears_redo (svc : SyncService) (stroke : DrawingOperation)
    (ok : Bool) (db : DB) :
    roomRedo (commitStroke svc stroke ok db).2 svc.roomId = [] ∧
    redoLast svc (commitStroke svc stroke ok db).2 =
      (none, (commitStroke svc stroke ok db).2) ∧
    (commitClear svc db).redo = db.redo := by
  have hredo : (commitStroke svc stroke ok db).2.redo =
      (clearRedoStack db svc.roomId).redo := by
    unfold commitStroke
    cases ok
    · rfl
    · rfl
  have hempty : roomRedo (commitStroke svc stroke ok db).2 svc.roomId = [] := by
    unfold roomRedo
    rw [hredo]
    exact roomRedo_clearRedoStack db svc.roomId
  exact ⟨hempty, redoLast_of_empty svc _ hempty, rfl⟩

/-! #### Claim C4: commitStroke result propagation -/

/-- C4: when the durable append cannot complete, `commitStroke` returns the
explicit failure result `none` (the caller sees the `StorageFailure`); when
it completes, `commitStroke` returns the sequence assigned by the
`BIGSERIAL` counter (which is at least 1, so the source's
`data?.sequence || null` cannot collapse a real sequence to `null`). -/
theorem commitStroke_result (svc : SyncService) (stroke : DrawingOperation)
    (db : DB) (h : 1 ≤ db.nextSeq) :
    (commitStroke svc stroke false db).1 = none ∧
    (commitStroke svc stroke true db).1 = some db.nextSeq := by
  refine ⟨rfl, ?_⟩
  have hne : (db.nextSeq == 0) = false := by
    simp only [beq_eq_false_iff_ne]
    omega
  simp [commitStroke, insertOp, clearRedoStack, hne]

/-- Witness for C4 on the concrete database `db0`. -/
theorem commitStroke_result_witness :
    (1 ≤ db0.nextSeq) ∧ (commitStroke svc0 (mkOp 7 0) true db0).1 = some db0.nextSeq :=
  ⟨by decide, (commitStroke_result svc0 (mkOp 7 0) db0 (by decide)).2⟩

/-! #### Claim C5: sequence assignment -/

theorem appendAll_seq_map (reqs : List AppendReq) :
    ∀ db : DB, ((appendAll db reqs).1.map Prod.snd) =
      List.range' db.nextSeq reqs.length := by
  induction reqs with
  | nil =>
    intro db
    rfl
  | cons r rs ih =>
    intro db
    have hrec := ih (insertOp db r.room r.user_id r.user_name r.user_color r.type r.data).2
    simp only [insertOp] at hrec
    simp [appendAll, insertOp, List.range'_succ, hrec]

/-- C5: over any serialised run of accepted `append` calls (the
interleaving of concurrent client commits), the assigned sequence numbers
are strictly increasing in call-acceptance order, hence pairwise distinct;
restricting to the calls of any single room preserves this. -/
theorem append_sequences_strictly_increasing (db : DB) (reqs : List AppendReq) :
    ((appendAll db reqs).1.map Prod.snd).Pairwise (fun a b => a < b) ∧
    ∀ room, (((appendAll db reqs).1.filter (fun p => p.1 == room)).map
      Prod.snd).Pairwise (fun a b => a < b) := by
  constructor
  · rw [appendAll_seq_map reqs db]
    exact List.pairwise_lt_range' _ _
  · intro room
    refine List.Pairwise.sublist (List.Sublist.map _ (List.filter_sublist _)) ?_
    rw [appendAll_seq_map reqs db]
    exact List.pairwise_lt_range' _ _


/-! #### Claim C3: undoLast -/

/-- C3: on a room with a non-empty log, `undoLast` removes exactly the
operation with the (unique) highest sequence, records it on the room's redo
stack with its original identifier, deletes it from the operation log, and
returns its identifier; on an empty log it returns `None` and changes
nothing. -/
theorem undoLast_spec (svc : SyncService) (db : DB) (hWF : WF db) :
    (roomOps db svc.roomId = [] → undoLast svc db = (none, db)) ∧
    (roomOps db svc.roomId ≠ [] →
      ∃ m, m ∈ roomOps db svc.roomId ∧
        (∀ o ∈ roomOps db svc.roomId, o ≠ m → o.sequence < m.sequence) ∧
        (undoLast svc db).1 = some m.id ∧
        ((undoLast svc db).2.ops).Sublist db.ops ∧
        m ∉ (undoLast svc db).2.ops ∧
        (∀ o ∈ db.ops, o ≠ m → o ∈ (undoLast svc db).2.ops) ∧
        (∃ e ∈ (undoLast svc db).2.redo, e.room_id = svc.roomId ∧
          e.operation_data = m ∧ e.original_id = m.id)) := by
  obtain ⟨hseq1, hseqlt, hseqne, hidne, hdel, hdelne⟩ := hWF
  constructor
  · intro hempty
    unfold undoLast
    rw [hempty]
    rfl
  · intro hne
    obtain ⟨m, hm, hmem, hmax⟩ := sortDesc_head_max (fun o => o.sequence) _ hne
    have hmdb : m ∈ db.ops := List.mem_of_mem_filter hmem
    have hu1 : (undoLast svc db).1 = some m.id := by
      unfold undoLast
      rw [hm]
    have huops : (undoLast svc db).2.ops =
        db.ops.filter (fun o => !(o.id == m.id)) := by
      unfold undoLast
      rw [hm]
      rfl
    have huredo : (undoLast svc db).2.redo =
        db.redo.filter (fun r => !(r.room_id == svc.roomId)) ++
          cleanupOldRedoItems (roomRedo db svc.roomId ++
            [⟨db.nextId, svc.roomId, m, db.clock, m.id⟩]) := by
      unfold undoLast
      rw [hm]
      rfl
    refine ⟨m, hmem, ?_, hu1, ?_, ?_, ?_, ?_⟩
    · intro o ho hone
      have hseqsub : (roomOps db svc.roomId).Pairwise
          (fun a b => a.sequence ≠ b.sequence) :=
        List.Pairwise.sublist (List.filter_sublist _) hseqne
      exact lt_of_le_of_ne (hmax o ho)
        (List.Pairwise.forall (fun x y h => Ne.symm h) hseqsub ho hmem hone)
    · rw [huops]
      exact List.filter_sublist _
    · rw [huops]
      intro hcontra
      have := (List.mem_filter.mp hcontra).2
      simp at this
    · intro o ho hone
      rw [huops]
      apply List.mem_filter.mpr
      refine ⟨ho, ?_⟩
      have hid : o.id ≠ m.id :=
        List.Pairwise.forall (fun x y h => Ne.symm h) hidne ho hmdb hone
      simp [hid]
    · rw [huredo]
      have hstrictmax : ∀ y ∈ roomRedo db svc.roomId ++
          [(⟨db.nextId, svc.roomId, m, db.clock, m.id⟩ : RedoRow)],
          y ≠ ⟨db.nextId, svc.roomId, m, db.clock, m.id⟩ →
          y.deleted_at <
            (⟨db.nextId, svc.roomId, m, db.clock, m.id⟩ : RedoRow).deleted_at := by
        intro y hy hyne
        rcases List.mem_append.mp hy with h | h
        · exact hdel y (List.mem_of_mem_filter h)
        · exact absurd (by simpa using h) hyne
      obtain ⟨t, ht⟩ := cleanup_head_of_strict_max _ _
        (List.mem_append.mpr (Or.inr (by simp))) hstrictmax
      refine ⟨⟨db.nextId, svc.roomId, m, db.clock, m.id⟩, ?_, rfl, rfl, rfl⟩
      apply List.mem_append.mpr
      right
      rw [ht]
      exact List.mem_cons_self _ _

/-- Witness for C3 on the singleton log `db0`. -/
theorem undoLast_spec_witness :
    WF db0 ∧ roomOps db0 svc0.roomId ≠ [] ∧
    ∃ m, m ∈ roomOps db0 svc0.roomId ∧
      (∀ o ∈ roomOps db0 svc0.roomId, o ≠ m → o.sequence < m.sequence) ∧
      (undoLast svc0 db0).1 = some m.id ∧
      ((undoLast svc0 db0).2.ops).Sublist db0.ops ∧
      m ∉ (undoLast svc0 db0).2.ops ∧
      (∀ o ∈ db0.ops, o ≠ m → o ∈ (undoLast svc0 db0).2.ops) ∧
      (∃ e ∈ (undoLast svc0 db0).2.redo, e.room_id = svc0.roomId ∧
        e.operation_data = m ∧ e.original_id = m.id) :=
  ⟨by decide, by decide, (undoLast_spec svc0 db0 (by decide)).2 (by decide)⟩

/-! #### Claim C2: undo followed by redo -/

/-- C2: on a room with a non-empty log, `undoLast` followed immediately by
`redoLast` commits a new operation with the removed operation's payload
(type and data) and authoring user, under a strictly higher sequence, and
`redoLast` returns that newly committed operation. -/
theorem undo_then_redo_roundtrip (svc : SyncService) (db : DB) (hWF : WF db)
    (hne : roomOps db svc.roomId ≠ []) :
    ∃ m newOp,
      (undoLast svc db).1 = some m.id ∧
      m ∈ roomOps db svc.roomId ∧
      (∀ o ∈ roomOps db svc.roomId, o.sequence ≤ m.sequence) ∧
      (redoLast svc (undoLast svc db).2).1 = some newOp ∧
      newOp.type = m.type ∧ newOp.data = m.data ∧ newOp.user_id = m.user_id ∧
      m.sequence < newOp.sequence ∧
      newOp ∈ (redoLast svc (undoLast svc db).2).2.ops := by
  obtain ⟨hseq1, hseqlt, hseqne, hidne, hdel, hdelne⟩ := hWF
  obtain ⟨m, hm, hmem, hmax⟩ := sortDesc_head_max (fun o => o.sequence) _ hne
  have hmdb : m ∈ db.ops := List.mem_of_mem_filter hmem
  have hu1 : (undoLast svc db).1 = some m.id := by
    unfold undoLast
    rw [hm]
  have huredo : (undoLast svc db).2.redo =
      db.redo.filter (fun r => !(r.room_id == svc.roomId)) ++
        cleanupOldRedoItems (roomRedo db svc.roomId ++
          [⟨db.nextId, svc.roomId, m, db.clock, m.id⟩]) := by
    unfold undoLast
    rw [hm]
    rfl
  have hunseq : (undoLast svc db).2.nextSeq = db.nextSeq := by
    unfold undoLast
    rw [hm]
    rfl
  have hstrictmax : ∀ y ∈ roomRedo db svc.roomId ++
      [(⟨db.nextId, svc.roomId, m, db.clock, m.id⟩ : RedoRow)],
      y ≠ ⟨db.nextId, svc.roomId, m, db.clock, m.id⟩ →
      y.deleted_at <
        (⟨db.nextId, svc.roomId, m, db.clock, m.id⟩ : RedoRow).deleted_at := by
    intro y hy hyne
    rcases List.mem_append.mp hy with h | h
    · exact hdel y (List.mem_of_mem_filter h)
    · exact absurd (by simpa using h) hyne
  obtain ⟨t, ht⟩ := cleanup_head_of_strict_max _ _
    (List.mem_append.mpr (Or.inr (by simp))) hstrictmax
  have hroomredo : roomRedo (undoLast svc db).2 svc.roomId =
      cleanupOldRedoItems (roomRedo db svc.roomId ++
        [⟨db.nextId, svc.roomId, m, db.clock, m.id⟩]) := by
    unfold roomRedo
    rw [huredo]
    exact filter_room_eq_cleanup db.redo svc.roomId _ rfl
  have hscrut : (sortDesc (fun r => r.deleted_at)
      (roomRedo (undoLast svc db).2 svc.roomId)).head? =
      some ⟨db.nextId, svc.roomId, m, db.clock, m.id⟩ := by
    rw [hroomredo, sortDesc_cleanup, ht]
    rfl
  have hr1 : (redoLast svc (undoLast svc db).2).1 =
      some { id := (undoLast svc db).2.nextId, room_id := svc.roomId,
             user_id := m.user_id, user_name := m.user_name,
             user_color := m.user_color, sequence := (undoLast svc db).2.nextSeq,
             type := m.type, data := m.data,
             created_at := (undoLast svc db).2.clock } := by
    unfold redoLast
    rw [hscrut]
    rfl
  have hrops : (redoLast svc (undoLast svc db).2).2.ops =
      (undoLast svc db).2.ops ++
        [{ id := (undoLast svc db).2.nextId, room_id := svc.roomId,
           user_id := m.user_id, user_name := m.user_name,
           user_color := m.user_color, sequence := (undoLast svc db).2.nextSeq,
           type := m.type, data := m.data,
           created_at := (undoLast svc db).2.clock }] := by
    unfold redoLast
    rw [hscrut]
    rfl
  refine ⟨m, _, hu1, hmem, hmax, hr1, rfl, rfl, rfl, ?_, ?_⟩
  · show m.sequence < (undoLast svc db).2.nextSeq
    rw [hunseq]
    exact hseqlt m hmdb
  · rw [hrops]
    exact List.mem_append.mpr (Or.inr (by simp))

/-- Witness for C2 on the singleton log `db0`. -/
theorem undo_then_redo_roundtrip_witness :
    WF db0 ∧ roomOps db0 svc0.roomId ≠ [] ∧
    ∃ m newOp,
      (undoLast svc0 db0).1 = some m.id ∧
      m ∈ roomOps db0 svc0.roomId ∧
      (∀ o ∈ roomOps db0 svc0.roomId, o.sequence ≤ m.sequence) ∧
      (redoLast svc0 (undoLast svc0 db0).2).1 = some newOp ∧
      newOp.type = m.type ∧ newOp.data = m.data ∧ newOp.user_id = m.user_id ∧
      m.sequence < newOp.sequence ∧
      newOp ∈ (redoLast svc0 (undoLast svc0 db0).2).2.ops :=
  ⟨by decide, by decide, undo_then_redo_roundtrip svc0 db0 (by decide) (by decide)⟩

/-! #### Claim C6: the redo stack bound -/

theorem roomRedo_undoLast_le (svc : SyncService) (db : DB) (room : String)
    (h : (roomRedo db room).length ≤ 50) :
    (roomRedo (undoLast svc db).2 room).length ≤ 50 := by
  rcases hm : (sortDesc (fun o => o.sequence) (roomOps db svc.roomId)).head? with _ | m
  · have hnone : undoLast svc db = (none, db) := by
      unfold undoLast
      rw [hm]
    rw [hnone]
    exact h
  · have huredo : (undoLast svc db).2.redo =
        db.redo.filter (fun r => !(r.room_id == svc.roomId)) ++
          cleanupOldRedoItems (roomRedo db svc.roomId ++
            [⟨db.nextId, svc.roomId, m, db.clock, m.id⟩]) := by
      unfold undoLast
      rw [hm]
      rfl
    by_cases hroom : room = svc.roomId
    · have heq : roomRedo (undoLast svc db).2 room =
          cleanupOldRedoItems (roomRedo db svc.roomId ++
            [⟨db.nextId, svc.roomId, m, db.clock, m.id⟩]) := by
        unfold roomRedo
        rw [huredo, hroom]
        exact filter_room_eq_cleanup db.redo svc.roomId _ rfl
      rw [heq]
      unfold cleanupOldRedoItems
      rw [List.length_take]
      exact min_le_left _ _
    · have heq : roomRedo (undoLast svc db).2 room = roomRedo db room := by
        unfold roomRedo
        rw [huredo]
        exact filter_other_room_eq db.redo svc.roomId room _ rfl hroom
      rw [heq]
      exact h

theorem roomRedo_undoMany_le (svcs : List SyncService) (db : DB) (room : String)
    (h : (roomRedo db room).length ≤ 50) :
    (roomRedo (undoMany svcs db) room).length ≤ 50 := by
  induction svcs generalizing db with
  | nil => exact h
  | cons s t ih => exact ih _ (roomRedo_undoLast_le s db room h)

theorem undoLast_evicts_oldest (svc : SyncService) (db : DB) (room : String)
    (hWF : WF db) :
    ∀ e ∈ roomRedo db room, e ∉ roomRedo (undoLast svc db).2 room →
      ∀ k ∈ roomRedo (undoLast svc db).2 room, e.deleted_at < k.deleted_at := by
  intro e he hnot k hk
  obtain ⟨hseq1, hseqlt, hseqne, hidne, hdel, hdelne⟩ := hWF
  rcases hm : (sortDesc (fun o => o.sequence) (roomOps db svc.roomId)).head? with _ | m
  · have hnone : undoLast svc db = (none, db) := by
      unfold undoLast
      rw [hm]
    rw [hnone] at hnot
    exact absurd he hnot
  · have huredo : (undoLast svc db).2.redo =
        db.redo.filter (fun r => !(r.room_id == svc.roomId)) ++
          cleanupOldRedoItems (roomRedo db svc.roomId ++
            [⟨db.nextId, svc.roomId, m, db.clock, m.id⟩]) := by
      unfold undoLast
      rw [hm]
      rfl
    by_cases hroom : room = svc.roomId
    · rw [hroom] at he hnot hk
      have heq : roomRedo (undoLast svc db).2 svc.roomId =
          cleanupOldRedoItems (roomRedo db svc.roomId ++
            [⟨db.nextId, svc.roomId, m, db.clock, m.id⟩]) := by
        unfold roomRedo
        rw [huredo]
        exact filter_room_eq_cleanup db.redo svc.roomId _ rfl
      rw [heq] at hnot hk
      unfold cleanupOldRedoItems at hnot hk
      have heS : e ∈ sortDesc (fun r => r.deleted_at)
          (roomRedo db svc.roomId ++ [⟨db.nextId, svc.roomId, m, db.clock, m.id⟩]) :=
        (sortDesc_perm _ _).mem_iff.mpr (List.mem_append.mpr (Or.inl he))
      have hedrop : e ∈ (sortDesc (fun r => r.deleted_at)
          (roomRedo db svc.roomId ++
            [⟨db.nextId, svc.roomId, m, db.clock, m.id⟩])).drop 50 := by
        have hsplit : e ∈ (sortDesc (fun r : RedoRow => r.deleted_at)
            (roomRedo db svc.roomId ++
              [⟨db.nextId, svc.roomId, m, db.clock, m.id⟩])).take 50 ++
            (sortDesc (fun r : RedoRow => r.deleted_at)
            (roomRedo db svc.roomId ++
              [⟨db.nextId, svc.roomId, m, db.clock, m.id⟩])).drop 50 := by
          rw [List.take_append_drop]
          exact heS
        rcases List.mem_append.mp hsplit with h | h
        · exact absurd h hnot
        · exact h
      have hle : e.deleted_at ≤ k.deleted_at :=
        List.Sorted.rel_of_mem_take_of_mem_drop
          (sortDesc_sorted (fun r : RedoRow => r.deleted_at)
            (roomRedo db svc.roomId ++ [⟨db.nextId, svc.roomId, m, db.clock, m.id⟩]))
          hk hedrop
      have hLpair : (roomRedo db svc.roomId ++
          [(⟨db.nextId, svc.roomId, m, db.clock, m.id⟩ : RedoRow)]).Pairwise
            (fun a b => a.deleted_at ≠ b.deleted_at) := by
        apply List.pairwise_append.mpr
        refine ⟨List.Pairwise.sublist (List.filter_sublist _) hdelne, by simp, ?_⟩
        intro a ha b hb
        have hb' : b = ⟨db.nextId, svc.roomId, m, db.clock, m.id⟩ := by simpa using hb
        have halt : a.deleted_at < db.clock := hdel a (List.mem_of_mem_filter ha)
        rw [hb']
        show a.deleted_at ≠ db.clock
        omega
      have hSpair : List.Sorted (fun a b : RedoRow => a.deleted_at ≠ b.deleted_at)
          (sortDesc (fun r => r.deleted_at)
            (roomRedo db svc.roomId ++
              [⟨db.nextId, svc.roomId, m, db.clock, m.id⟩])) :=
        (List.Perm.pairwise_iff (fun hab => Ne.symm hab) (sortDesc_perm _ _)).mpr hLpair
      have hne' : k.deleted_at ≠ e.deleted_at :=
        List.Sorted.rel_of_mem_take_of_mem_drop hSpair hk hedrop
      omega
    · have heq : roomRedo (undoLast svc db).2 room = roomRedo db room := by
        unfold roomRedo
        rw [huredo]
        exact filter_other_room_eq db.redo svc.roomId room _ rfl hroom
      rw [heq] at hnot
      exact absurd he hnot

/-- C6: starting from any state whose redo stack for a room holds at most 50
entries, any number of `undoLast` calls leaves that room's redo stack with at
most 50 entries, and whenever an `undoLast` push evicts entries, every
evicted entry is older (by removal time) than every retained entry. -/
theorem redo_stack_bounded (svcs : List SyncService) (svc : SyncService)
    (db : DB) (room : String) (h50 : (roomRedo db room).length ≤ 50)
    (hWF : WF db) :
    (roomRedo (undoMany svcs db) room).length ≤ 50 ∧
    (∀ e ∈ roomRedo db room, e ∉ roomRedo (undoLast svc db).2 room →
      ∀ k ∈ roomRedo (undoLast svc db).2 room, e.deleted_at < k.deleted_at) :=
  ⟨roomRedo_undoMany_le svcs db room h50, undoLast_evicts_oldest svc db room hWF⟩

/-- Witness for C6 on the concrete state `db0` (empty redo stack). -/
theorem redo_stack_bounded_witness :
    (roomRedo db0 svc0.roomId).length ≤ 50 ∧ WF db0 ∧
    (roomRedo (undoMany [svc0] db0) svc0.roomId).length ≤ 50 :=
  ⟨by decide, by decide,
    (redo_stack_bounded [svc0] svc0 db0 svc0.roomId (by decide) (by decide)).1⟩

end Canvas
